import Mathlib

/-!
# Verification of the acquisition-and-normalization core of `check_systemd`

This file is a shallow embedding of the core of `check_systemd.py`
(version 4.1.0): the canonical unit/timer model, the state enumerations and
their strict/lenient checkers, the regular-expression based name filter, the
unit cache with per-state counting, the fixed-width table parser, the
timespan parser and the per-scope probe/evaluation functions.

Python semantics that matter for the embedding and are modelled explicitly:

* truthiness: `None` and the empty string `""` are falsy (`truthyOptStr`),
  the float `0.0` is falsy (`truthyFloat`);
* `re.match` anchors at position 0 and does not need to reach the end of the
  string: it succeeds iff some prefix of the subject matches.  Regular
  expressions are modelled by the `Regex` AST with a Brzozowski-derivative
  matcher `Regex.matchFromStart`, proved equivalent to the declarative
  semantics `RMatch` below;
* floats are modelled as exact rationals (`ℚ`);
* a raising Python function is modelled with `Except`/`Option` results.
-/

namespace CheckSystemd

/-- The exit states of the nagiosplugin framework
(`Ok = 0`, `Warn = 1`, `Critical = 2`, `Unknown = 3`). -/
inductive ServiceState where
  | ok
  | warn
  | critical
  | unknown
deriving DecidableEq, Repr

/-- The `ActiveState` closed enumeration (`Literal[...]` in the source). -/
def activeStates : List String :=
  ["active", "reloading", "inactive", "failed", "activating", "deactivating"]

/-- The `SubState` closed enumeration (`Literal[...]` in the source). -/
def subStates : List String :=
  ["abandoned", "activating-done", "activating", "active", "auto-restart",
   "cleaning", "condition", "deactivating-sigkill", "deactivating-sigterm",
   "deactivating", "dead", "elapsed", "exited", "failed", "final-sigkill",
   "final-sigterm", "final-watchdog", "listening", "mounted", "mounting-done",
   "mounting", "plugged", "reload", "remounting-sigkill", "remounting-sigterm",
   "remounting", "running", "start-chown", "start-post", "start-pre", "start",
   "stop-post", "stop-pre-sigkill", "stop-pre-sigterm", "stop-pre",
   "stop-sigkill", "stop-sigterm", "stop-watchdog", "stop", "tentative",
   "unmounting-sigkill", "unmounting-sigterm", "unmounting", "waiting"]

/-- The `LoadState` closed enumeration (`Literal[...]` in the source). -/
def loadStates : List String :=
  ["stub", "loaded", "not-found", "bad-setting", "error", "merged", "masked"]

/-- Model of `_check_active_state`: non-raising classification helper.  Returns the
value when it is a member of the enumeration, `None` otherwise (the Python
function falls through and implicitly returns `None`).  A supplied `None`
is never a member of the enumeration. -/
def check_active_state (state : Option String) : Option String :=
  match state with
  | some s => if s ∈ activeStates then some s else none
  | none => none

/-- Model of `_check_sub_state`: non-raising classification helper. -/
def check_sub_state (state : Option String) : Option String :=
  match state with
  | some s => if s ∈ subStates then some s else none
  | none => none

/-- Model of `_check_load_state`: non-raising classification helper. -/
def check_load_state (state : Option String) : Option String :=
  match state with
  | some s => if s ∈ loadStates then some s else none
  | none => none

namespace Source

/-- Model of `Source.Unit`: the canonical record of one systemd unit's state triad. -/
structure Unit where
  name : String
  active_state : String
  sub_state : String
  load_state : String
deriving DecidableEq, Repr

/-- Model of `Source.Unit.__check_active_state`: strict checker used by the
constructor; raises `ValueError` on a value outside the enumeration. -/
def checkActiveStateStrict (state : Option String) : Except String String :=
  match state with
  | some s =>
      if s ∈ activeStates then Except.ok s
      else Except.error ("Invalid active state: " ++ s)
  | none => Except.error "Invalid active state: None"

/-- Model of `Source.Unit.__check_sub_state`: strict checker. -/
def checkSubStateStrict (state : Option String) : Except String String :=
  match state with
  | some s =>
      if s ∈ subStates then Except.ok s
      else Except.error ("Invalid sub state: " ++ s)
  | none => Except.error "Invalid sub state: None"

/-- Model of `Source.Unit.__check_load_state`: strict checker. -/
def checkLoadStateStrict (state : Option String) : Except String String :=
  match state with
  | some s =>
      if s ∈ loadStates then Except.ok s
      else Except.error ("Invalid load state: " ++ s)
  | none => Except.error "Invalid load state: None"

/-- Model of `Source.Unit.__init__`: strict construction of a canonical unit record.
The three state fields are validated in order (active, sub, load); the first
invalid one raises. -/
def Unit.make (name : String) (active_state sub_state load_state : Option String) :
    Except String Unit :=
  match checkActiveStateStrict active_state with
  | Except.error e => Except.error e
  | Except.ok a =>
      match checkSubStateStrict sub_state with
      | Except.error e => Except.error e
      | Except.ok s =>
          match checkLoadStateStrict load_state with
          | Except.error e => Except.error e
          | Except.ok l =>
              Except.ok { name := name, active_state := a, sub_state := s, load_state := l }

/-- A unit record whose three state fields lie in their enumerations —
the invariant established by `Unit.make`. -/
def Unit.valid (u : Unit) : Prop :=
  u.active_state ∈ activeStates ∧ u.sub_state ∈ subStates ∧ u.load_state ∈ loadStates

instance (u : Unit) : Decidable u.valid := by
  unfold Unit.valid; infer_instance

/-- Python truthiness of `Optional[str]`: `None` and `""` are falsy. -/
def truthyOptStr : Option String → Bool
  | none => false
  | some s => s ≠ ""

/-- Model of `str.lower` (ASCII case folding suffices for the state values involved). -/
def lowerStr (s : String) : String := ⟨s.data.map Char.toLower⟩

/-- Model of `Source.Unit.convert_to_exitcode`: the per-unit verdict.  The global
`opts.expected_state` is passed explicitly.  Faithful to
`if opts.expected_state and opts.expected_state.lower() != self.active_state`:
the expected state must be truthy (neither `None` nor `""`) for the first
branch to be taken at all. -/
def Unit.convert_to_exitcode (expected_state : Option String) (u : Unit) :
    ServiceState :=
  if truthyOptStr expected_state ∧ lowerStr (expected_state.getD "") ≠ u.active_state
  then ServiceState.critical
  else if u.load_state = "error" ∨ u.active_state = "failed"
  then ServiceState.critical
  else ServiceState.ok

end Source

/-! ## Regular expressions

`check_systemd` hands the include/exclude patterns to `re.match`.  The
pattern language is modelled by the `Regex` AST; `re.match(r, s)` is truthy
iff some prefix of `s` belongs to the language of `r` (anchored at position
0, not required to reach the end).  `Regex.matchFromStart` decides this via
Brzozowski derivatives and is proved equivalent to the declarative
semantics `RMatch`. -/

inductive Regex where
  | emptyset
  | eps
  | chr (c : Char)
  | dot
  | cat (r1 r2 : Regex)
  | alt (r1 r2 : Regex)
  | star (r : Regex)
deriving DecidableEq, Repr

/-- Declarative semantics: `RMatch r s` holds iff `s` is in the language of
`r`.  `dot` (the pattern `.`) matches any character except a newline, as in
Python's `re` default mode. -/
inductive RMatch : Regex → List Char → Prop where
  | eps : RMatch Regex.eps []
  | chr (c : Char) : RMatch (Regex.chr c) [c]
  | dot (c : Char) : c ≠ '\n' → RMatch Regex.dot [c]
  | catm {r1 r2 : Regex} {s1 s2 : List Char} :
      RMatch r1 s1 → RMatch r2 s2 → RMatch (Regex.cat r1 r2) (s1 ++ s2)
  | altl {r1 r2 : Regex} {s : List Char} :
      RMatch r1 s → RMatch (Regex.alt r1 r2) s
  | altr {r1 r2 : Regex} {s : List Char} :
      RMatch r2 s → RMatch (Regex.alt r1 r2) s
  | star0 {r : Regex} : RMatch (Regex.star r) []
  | stars {r : Regex} {s1 s2 : List Char} :
      RMatch r s1 → RMatch (Regex.star r) s2 → RMatch (Regex.star r) (s1 ++ s2)

/-- Does the regex accept the empty string? -/
def Regex.nullable : Regex → Bool
  | .emptyset => false
  | .eps => true
  | .chr _ => false
  | .dot => false
  | .cat r1 r2 => r1.nullable && r2.nullable
  | .alt r1 r2 => r1.nullable || r2.nullable
  | .star _ => true

/-- Brzozowski derivative with respect to one character. -/
def Regex.deriv : Regex → Char → Regex
  | .emptyset, _ => .emptyset
  | .eps, _ => .emptyset
  | .chr c, a => if a = c then .eps else .emptyset
  | .dot, a => if a = '\n' then .emptyset else .eps
  | .cat r1 r2, a =>
      if r1.nullable then .alt (.cat (r1.deriv a) r2) (r2.deriv a)
      else .cat (r1.deriv a) r2
  | .alt r1 r2, a => .alt (r1.deriv a) (r2.deriv a)
  | .star r, a => .cat (r.deriv a) (.star r)

/-- Model of `re.match` semantics: does some prefix of `s` match `r`? -/
def Regex.matchFromStart : Regex → List Char → Bool
  | r, [] => r.nullable
  | r, c :: s => r.nullable || (r.deriv c).matchFromStart s

theorem rmatch_nil_of_nullable : ∀ (r : Regex), r.nullable = true → RMatch r [] := by
  intro r
  induction r with
  | emptyset => intro h; simp [Regex.nullable] at h
  | eps => intro _; exact RMatch.eps
  | chr c => intro h; simp [Regex.nullable] at h
  | dot => intro h; simp [Regex.nullable] at h
  | cat r1 r2 ih1 ih2 =>
      intro h
      simp only [Regex.nullable, Bool.and_eq_true] at h
      have hm := RMatch.catm (ih1 h.1) (ih2 h.2)
      simpa using hm
  | alt r1 r2 ih1 ih2 =>
      intro h
      simp only [Regex.nullable, Bool.or_eq_true] at h
      rcases h with h | h
      · exact RMatch.altl (ih1 h)
      · exact RMatch.altr (ih2 h)
  | star r _ => intro _; exact RMatch.star0

theorem nullable_of_rmatch_nil :
    ∀ {r : Regex} {s : List Char}, RMatch r s → s = [] → r.nullable = true := by
  intro r s h
  induction h with
  | eps => intro _; rfl
  | chr c => intro hc; cases hc
  | dot c _ => intro hc; cases hc
  | catm h1 h2 ih1 ih2 =>
      intro hnil
      have hs := List.append_eq_nil.mp hnil
      simp only [Regex.nullable, Bool.and_eq_true]
      exact ⟨ih1 hs.1, ih2 hs.2⟩
  | altl h ih =>
      intro hnil
      simp only [Regex.nullable, Bool.or_eq_true]
      exact Or.inl (ih hnil)
  | altr h ih =>
      intro hnil
      simp only [Regex.nullable, Bool.or_eq_true]
      exact Or.inr (ih hnil)
  | star0 => intro _; rfl
  | stars h1 h2 ih1 ih2 => intro _; rfl

theorem nullable_iff (r : Regex) : r.nullable = true ↔ RMatch r [] :=
  ⟨rmatch_nil_of_nullable r, fun h => nullable_of_rmatch_nil h rfl⟩

theorem deriv_sound {r : Regex} {c : Char} :
    ∀ {s : List Char}, RMatch (r.deriv c) s → RMatch r (c :: s) := by
  induction r with
  | emptyset => intro s h; cases h
  | eps => intro s h; cases h
  | chr a =>
      intro s h
      simp only [Regex.deriv] at h
      by_cases hc : c = a
      · rw [if_pos hc] at h
        cases h
        subst hc
        exact RMatch.chr c
      · rw [if_neg hc] at h; cases h
  | dot =>
      intro s h
      simp only [Regex.deriv] at h
      by_cases hc : c = '\n'
      · rw [if_pos hc] at h; cases h
      · rw [if_neg hc] at h
        cases h
        exact RMatch.dot c hc
  | cat r1 r2 ih1 ih2 =>
      intro s h
      simp only [Regex.deriv] at h
      by_cases hn : r1.nullable
      · rw [if_pos hn] at h
        cases h with
        | altl h =>
            cases h with
            | catm h1 h2 =>
                have hm := RMatch.catm (ih1 h1) h2
                simpa using hm
        | altr h =>
            have h1 : RMatch r1 [] := (nullable_iff r1).mp hn
            have hm := RMatch.catm h1 (ih2 h)
            simpa using hm
      · rw [if_neg hn] at h
        cases h with
        | catm h1 h2 =>
            have hm := RMatch.catm (ih1 h1) h2
            simpa using hm
  | alt r1 r2 ih1 ih2 =>
      intro s h
      cases h with
      | altl h => exact RMatch.altl (ih1 h)
      | altr h => exact RMatch.altr (ih2 h)
  | star r ih =>
      intro s h
      cases h with
      | catm h1 h2 =>
          have hm := RMatch.stars (ih h1) h2
          simpa using hm

theorem deriv_complete {r : Regex} {t : List Char} (h : RMatch r t) :
    ∀ {c : Char} {s : List Char}, t = c :: s → RMatch (r.deriv c) s := by
  induction h with
  | eps => intro c s hcs; cases hcs
  | chr a =>
      intro c s hcs
      obtain ⟨hc, hs⟩ := List.cons.inj hcs
      subst hc; subst hs
      simp only [Regex.deriv, if_pos rfl]
      exact RMatch.eps
  | dot a ha =>
      intro c s hcs
      obtain ⟨hc, hs⟩ := List.cons.inj hcs
      subst hc; subst hs
      simp only [Regex.deriv, if_neg ha]
      exact RMatch.eps
  | @catm r1 r2 s1 s2 h1 h2 ih1 ih2 =>
      intro c s hcs
      simp only [Regex.deriv]
      cases s1 with
      | nil =>
          have hn : r1.nullable = true := (nullable_iff r1).mpr h1
          rw [if_pos hn]
          rw [List.nil_append] at hcs
          exact RMatch.altr (ih2 hcs)
      | cons a s1' =>
          rw [List.cons_append] at hcs
          obtain ⟨hc, hs⟩ := List.cons.inj hcs
          subst hc
          have hcat : RMatch (Regex.cat (r1.deriv a) r2) s := by
            rw [← hs]
            exact RMatch.catm (ih1 rfl) h2
          by_cases hn : r1.nullable
          · rw [if_pos hn]; exact RMatch.altl hcat
          · rw [if_neg hn]; exact hcat
  | altl h ih =>
      intro c s hcs
      exact RMatch.altl (ih hcs)
  | altr h ih =>
      intro c s hcs
      exact RMatch.altr (ih hcs)
  | star0 => intro c s hcs; cases hcs
  | @stars r s1 s2 h1 h2 ih1 ih2 =>
      intro c s hcs
      cases s1 with
      | nil =>
          rw [List.nil_append] at hcs
          exact ih2 hcs
      | cons a s1' =>
          rw [List.cons_append] at hcs
          obtain ⟨hc, hs⟩ := List.cons.inj hcs
          subst hc
          simp only [Regex.deriv]
          rw [← hs]
          exact RMatch.catm (ih1 rfl) h2

theorem deriv_iff {r : Regex} {c : Char} {s : List Char} :
    RMatch (r.deriv c) s ↔ RMatch r (c :: s) :=
  ⟨deriv_sound, fun h => deriv_complete h rfl⟩

/-- Correctness of the executable matcher: `matchFromStart` succeeds iff some
prefix of the subject is in the language — exactly the `re.match` contract
(anchored at position 0of the subject, not required to reach its end). -/
theorem matchFromStart_iff (r : Regex) (s : List Char) :
    r.matchFromStart s = true ↔ ∃ p, p <+: s ∧ RMatch r p := by
  induction s generalizing r with
  | nil =>
      simp only [Regex.matchFromStart]
      constructor
      · intro h
        exact ⟨[], List.prefix_refl [], (nullable_iff r).mp h⟩
      · rintro ⟨p, hp, hm⟩
        have : p = [] := List.prefix_nil.mp hp
        exact (nullable_iff r).mpr (this ▸ hm)
  | cons c t ih =>
      simp only [Regex.matchFromStart, Bool.or_eq_true]
      constructor
      · rintro (h | h)
        · exact ⟨[], List.nil_prefix, (nullable_iff r).mp h⟩
        · obtain ⟨p, hp, hm⟩ := (ih (r.deriv c)).mp h
          exact ⟨c :: p, List.cons_prefix_cons.mpr ⟨rfl, hp⟩, deriv_iff.mp hm⟩
      · rintro ⟨p, hp, hm⟩
        cases p with
        | nil => exact Or.inl ((nullable_iff r).mpr hm)
        | cons a p' =>
            obtain ⟨hc, hp'⟩ := List.cons_prefix_cons.mp hp
            subst hc
            exact Or.inr ((ih (r.deriv a)).mpr ⟨p', hp', deriv_iff.mpr hm⟩)

namespace Source

/-! ## `Source.NameFilter`

The Python class stores the unit names in a `set[str]`; the embedding
carries the names as a list that stands for one concrete iteration
sequence of that set.  Only properties that are independent of the
iteration order (membership, counts) are proved about it. -/

/-- Model of `Source.NameFilter.match`: `True` if at least one of the regular
expressions matches (with `re.match`, i.e. anchored at position 0). -/
def NameFilter.matchName (unit_name : String) (regexes : List Regex) : Bool :=
  regexes.any fun r => r.matchFromStart unit_name.data

/-- The body of the loop of `Source.NameFilter.filter` for one name.
Faithful to the Python truthiness chain:
`output = name; if include and not match(...): output = None;`
`if output and exclude and match(...): output = None; if output: yield`.
Note that `if output:` is a *truthiness* test, so the empty name `""` is
never yielded. -/
def NameFilter.keeps (inc exc : List Regex) (name : String) : Bool :=
  let output : Option String := some name
  let output : Option String :=
    if !inc.isEmpty && !NameFilter.matchName name inc then none else output
  let output : Option String :=
    if truthyOptStr output && !exc.isEmpty && NameFilter.matchName name exc
    then none else output
  truthyOptStr output

/-- Model of `Source.NameFilter.filter` run over one iteration sequence of the
stored name set. -/
def NameFilter.filterRun (unit_names : List String) (inc exc : List Regex) :
    List String :=
  unit_names.filter (NameFilter.keeps inc exc)

/-! ## `Source.Cache`

A container for units: a `dict[str, T]` (insertion ordered, overwrite on
re-add keeps the original position) plus a parallel `NameFilter`. -/

/-- Model of `Source.Cache`: the `__units` dict as an association list with unique
keys (the dict invariant is the `keysNodup` predicate below). -/
structure Cache where
  units : List (String × Unit)
deriving DecidableEq, Repr

/-- Model of `Source.Cache.add`: `self.__units[name] = unit` — overwrite in place if
the key exists (Python dicts keep the original insertion position),
append otherwise. -/
def Cache.add (c : Cache) (name : String) (u : Unit) : Cache :=
  if c.units.any (fun p => p.1 = name) then
    ⟨c.units.map fun p => if p.1 = name then (name, u) else p⟩
  else
    ⟨c.units ++ [(name, u)]⟩

/-- The stored unit names (the key view of the dict / the name filter's
content). -/
def Cache.names (c : Cache) : List String := c.units.map Prod.fst

/-- Dictionary lookup `self.__units[name]`. -/
def Cache.lookupUnit (c : Cache) (name : String) : Option Unit :=
  (c.units.find? fun p => p.1 = name).map Prod.snd

/-- The Python dict invariant: keys are unique. -/
def Cache.keysNodup (c : Cache) : Prop := c.names.Nodup

instance (c : Cache) : Decidable c.keysNodup := by
  unfold Cache.keysNodup; infer_instance

/-- Model of `Source.Cache.filter`: yield `self.__units[name]` for every name the
name filter yields. -/
def Cache.filterUnits (c : Cache) (inc exc : List Regex) : List Unit :=
  (NameFilter.filterRun c.names inc exc).filterMap c.lookupUnit

/-- Model of `Source.Cache.count`: `len(self.__units)`. -/
def Cache.count (c : Cache) : Nat := c.units.length

/-- Model of `getattr(unit, prop)` for the attributes a `Source.Unit` record has;
`none` models the `AttributeError` case. -/
def unitAttr (u : Unit) (prop : String) : Option String :=
  if prop = "name" then some u.name
  else if prop = "active_state" then some u.active_state
  else if prop = "sub_state" then some u.sub_state
  else if prop = "load_state" then some u.load_state
  else none

/-- Model of `state_spec.split(":")[0]` — the property part of a `property:value`
state spec. -/
def specProperty (spec : String) : String :=
  ⟨spec.data.takeWhile (· ≠ ':')⟩

/-- Model of `state_spec.split(":")[1]` — the value part of a `property:value`
state spec (the segment between the first and second colon; specs are
assumed to contain a colon, as every spec in the source does). -/
def specValue (spec : String) : String :=
  ⟨((spec.data.dropWhile (· ≠ ':')).drop 1).takeWhile (· ≠ ':')⟩

/-- Model of `Source.Cache.count_by_states`: initialise one counter per state spec
to 0 (dict in spec order), then walk the filtered units once and increment
every counter whose `property:value` spec matches the unit.  (The state
specs are assumed pairwise distinct, as they are at the call site.) -/
def Cache.count_by_states (c : Cache) (states : List String)
    (inc exc : List Regex) : List (String × Nat) :=
  (c.filterUnits inc exc).foldl
    (fun counter u =>
      counter.map fun p =>
        if unitAttr u (specProperty p.1) = some (specValue p.1)
        then (p.1, p.2 + 1) else p)
    (states.map fun spec => (spec, 0))

end Source

/-! ## Probes (the nagiosplugin `Resource.probe` implementations) -/

/-- Model of `UnitsResource.probe`: yield one metric per unit the filter yields
(`Metric(name=unit.name, value=unit)`), then raise `ValueError` if nothing
was yielded.  The raise is modelled as an `Except.error`; the framework
maps it to the Unknown verdict. -/
def unitsResourceProbe (units : Source.Cache) (inc exc : List Regex) :
    Except String (List (String × Source.Unit)) :=
  let yielded := (units.filterUnits inc exc).map fun u => (u.name, u)
  if yielded.length = 0 then
    Except.error
      "Please verify your --include-* and --exclude-* options. No units have been added for testing."
  else Except.ok yielded

/-- The timers resource works on `Source.Timer` records
(`next`/`passed` are optional second counts). -/
structure Timer where
  name : String
  next : Option ℚ
  passed : Option ℚ
deriving DecidableEq, Repr

/-- The per-timer state computed inside `TimersResource.probe`:
`state = Ok; if next is None: if passed is None: Critical
elif passed >= timers_critical: Critical elif passed >= timers_warning:
Warn`. -/
def timerVerdict (timers_warning timers_critical : ℚ) (t : Timer) :
    ServiceState :=
  match t.next with
  | some _ => ServiceState.ok
  | none =>
      match t.passed with
      | none => ServiceState.critical
      | some p =>
          if p ≥ timers_critical then ServiceState.critical
          else if p ≥ timers_warning then ServiceState.warn
          else ServiceState.ok

/-- Model of `TimersResource.probe`: skip timers whose name matches an exclude
expression, yield a `(name, state)` metric for every other timer. -/
def timersProbe (timers : List Timer) (exc : List Regex)
    (timers_warning timers_critical : ℚ) : List (String × ServiceState) :=
  timers.filterMap fun t =>
    if Source.NameFilter.matchName t.name exc then none
    else some (t.name, timerVerdict timers_warning timers_critical t)

/-- Python truthiness of `Optional[float]`: `None` and `0.0` are falsy. -/
def truthyFloat : Option ℚ → Bool
  | none => false
  | some q => q ≠ 0

/-- Model of `StartupTimeResource.probe`: `if startup_time:` — a truthiness guard,
so both an absent measurement and an exact `0.0` yield no metric. -/
def startupTimeProbe (startup_time : Option ℚ) : List (String × ℚ) :=
  if truthyFloat startup_time then
    [("startup_time", startup_time.getD 0)]
  else []

/-- Model of `PerformanceDataResource.probe`: four per-state counters from
`count_by_states` — called with only `exclude=opts.exclude`, the include
filters are not passed — then a `count_units` metric holding the size of
the *unfiltered* cache.  The configured include list is received (the
global `opts` has it) but unused. -/
def performanceProbe (units : Source.Cache) (_inc exc : List Regex) :
    List (String × Nat) :=
  ((units.count_by_states
      ["active_state:failed", "active_state:active",
       "active_state:activating", "active_state:inactive"] [] exc).map
    fun p => ("units_" ++ Source.specValue p.1, p.2))
  ++ [("count_units", units.count)]

/-! ## Claim C1: the per-unit verdict -/

/-- The per-unit verdict as the specification words it: a configured
required state that differs case-insensitively from the unit's active
state is Critical; otherwise `load_state = "error"` or
`active_state = "failed"` is Critical; otherwise Ok.  (Spec-side
definition, to be compared with the code's `convert_to_exitcode`.) -/
def specUnitVerdict (required : Option String) (u : Source.Unit) : ServiceState :=
  match required with
  | some req =>
      if Source.lowerStr req ≠ Source.lowerStr u.active_state then ServiceState.critical
      else if u.load_state = "error" ∨ u.active_state = "failed" then ServiceState.critical
      else ServiceState.ok
  | none =>
      if u.load_state = "error" ∨ u.active_state = "failed" then ServiceState.critical
      else ServiceState.ok

theorem lowerStr_of_mem_activeStates :
    ∀ s ∈ activeStates, Source.lowerStr s = s := by decide

/-- C1: for every unit record (valid state triad) and every optional
configured required active state (a required state, if configured, is a
nonempty string — `argparse` restricts it to the six enumeration values):
the code's verdict agrees with the claimed case distinction, and it is
never Warning (it is always Ok or Critical). -/
theorem unit_convert_to_exitcode_spec (expected_state : Option String)
    (u : Source.Unit) (hu : u.valid) (hne : expected_state ≠ some "") :
    u.convert_to_exitcode expected_state = specUnitVerdict expected_state u ∧
    u.convert_to_exitcode expected_state ≠ ServiceState.warn := by
  have hlow : Source.lowerStr u.active_state = u.active_state :=
    lowerStr_of_mem_activeStates u.active_state hu.1
  constructor
  · cases expected_state with
    | none =>
        simp [Source.Unit.convert_to_exitcode, specUnitVerdict, Source.truthyOptStr]
    | some req =>
        have hreq : req ≠ "" := by
          intro h
          exact hne (by rw [h])
        simp only [Source.Unit.convert_to_exitcode, specUnitVerdict,
          Source.truthyOptStr, Option.getD_some, hlow]
        simp [hreq]
  · unfold Source.Unit.convert_to_exitcode
    split_ifs <;> simp

/-- A concrete instance for C1: a required state `inactive` against an
active, loaded unit gives Critical. -/
def demoUnitC1 : Source.Unit :=
  { name := "nginx.service", active_state := "active",
    sub_state := "running", load_state := "loaded" }

theorem unit_convert_to_exitcode_spec_witness :
    demoUnitC1.valid ∧ (some "inactive" ≠ some "") ∧
      (demoUnitC1.convert_to_exitcode (some "inactive") =
          specUnitVerdict (some "inactive") demoUnitC1 ∧
        demoUnitC1.convert_to_exitcode (some "inactive") ≠ ServiceState.warn) :=
  ⟨by decide, by decide,
    unit_convert_to_exitcode_spec (some "inactive") demoUnitC1 (by decide) (by decide)⟩

/-! ## Claim C8: strict construction vs. non-raising classification -/

/-- Predicate: `v` is a present value belonging to the enumeration. -/
def optMem (v : Option String) (states : List String) : Prop :=
  ∃ x, v = some x ∧ x ∈ states

theorem checkActiveStateStrict_ok_iff (v : Option String) (x : String) :
    Source.checkActiveStateStrict v = Except.ok x ↔ v = some x ∧ x ∈ activeStates := by
  cases v with
  | none => simp [Source.checkActiveStateStrict]
  | some s =>
      by_cases hs : s ∈ activeStates
      · simp only [Source.checkActiveStateStrict, if_pos hs]
        constructor
        · intro h
          cases h
          exact ⟨rfl, hs⟩
        · rintro ⟨h, _⟩
          cases h
          rfl
      · simp only [Source.checkActiveStateStrict, if_neg hs]
        constructor
        · intro h; cases h
        · rintro ⟨h, hx⟩
          cases h
          exact absurd hx hs

theorem checkSubStateStrict_ok_iff (v : Option String) (x : String) :
    Source.checkSubStateStrict v = Except.ok x ↔ v = some x ∧ x ∈ subStates := by
  cases v with
  | none => simp [Source.checkSubStateStrict]
  | some s =>
      by_cases hs : s ∈ subStates
      · simp only [Source.checkSubStateStrict, if_pos hs]
        constructor
        · intro h
          cases h
          exact ⟨rfl, hs⟩
        · rintro ⟨h, _⟩
          cases h
          rfl
      · simp only [Source.checkSubStateStrict, if_neg hs]
        constructor
        · intro h; cases h
        · rintro ⟨h, hx⟩
          cases h
          exact absurd hx hs

theorem checkLoadStateStrict_ok_iff (v : Option String) (x : String) :
    Source.checkLoadStateStrict v = Except.ok x ↔ v = some x ∧ x ∈ loadStates := by
  cases v with
  | none => simp [Source.checkLoadStateStrict]
  | some s =>
      by_cases hs : s ∈ loadStates
      · simp only [Source.checkLoadStateStrict, if_pos hs]
        constructor
        · intro h
          cases h
          exact ⟨rfl, hs⟩
        · rintro ⟨h, _⟩
          cases h
          rfl
      · simp only [Source.checkLoadStateStrict, if_neg hs]
        constructor
        · intro h; cases h
        · rintro ⟨h, hx⟩
          cases h
          exact absurd hx hs

/-- C8: strict construction of a canonical unit record succeeds iff all
three supplied state values belong to their closed enumerations (so any
value outside them makes the constructor raise), while the non-raising
classification helpers are total functions that return the supplied value
exactly when it belongs to the enumeration and `none` otherwise. -/
theorem state_validation_strict_vs_lenient (name : String)
    (a s l v : Option String) (x : String) :
    ((Source.Unit.make name a s l).isOk ↔
        (optMem a activeStates ∧ optMem s subStates ∧ optMem l loadStates)) ∧
      (check_active_state v = some x ↔ (v = some x ∧ x ∈ activeStates)) ∧
      (check_sub_state v = some x ↔ (v = some x ∧ x ∈ subStates)) ∧
      (check_load_state v = some x ↔ (v = some x ∧ x ∈ loadStates)) ∧
      ((check_active_state v).isSome ↔ optMem v activeStates) ∧
      ((check_sub_state v).isSome ↔ optMem v subStates) ∧
      ((check_load_state v).isSome ↔ optMem v loadStates) := by
  refine ⟨?_, ?_, ?_, ?_, ?_, ?_, ?_⟩
  · unfold Source.Unit.make
    cases ha : Source.checkActiveStateStrict a with
    | error e =>
        simp only [Except.isOk, Except.toBool]
        constructor
        · intro h; simp at h
        · rintro ⟨⟨x1, hx1, hm1⟩, _, _⟩
          have : Source.checkActiveStateStrict a = Except.ok x1 :=
            (checkActiveStateStrict_ok_iff a x1).mpr ⟨hx1, hm1⟩
          rw [ha] at this
          cases this
    | ok xa =>
        have hma := (checkActiveStateStrict_ok_iff a xa).mp ha
        cases hs : Source.checkSubStateStrict s with
        | error e =>
            simp only [Except.isOk, Except.toBool]
            constructor
            · intro h; simp at h
            · rintro ⟨_, ⟨x2, hx2, hm2⟩, _⟩
              have : Source.checkSubStateStrict s = Except.ok x2 :=
                (checkSubStateStrict_ok_iff s x2).mpr ⟨hx2, hm2⟩
              rw [hs] at this
              cases this
        | ok xs =>
            have hms := (checkSubStateStrict_ok_iff s xs).mp hs
            cases hl : Source.checkLoadStateStrict l with
            | error e =>
                simp only [Except.isOk, Except.toBool]
                constructor
                · intro h; simp at h
                · rintro ⟨_, _, ⟨x3, hx3, hm3⟩⟩
                  have : Source.checkLoadStateStrict l = Except.ok x3 :=
                    (checkLoadStateStrict_ok_iff l x3).mpr ⟨hx3, hm3⟩
                  rw [hl] at this
                  cases this
            | ok xl =>
                have hml := (checkLoadStateStrict_ok_iff l xl).mp hl
                simp only [Except.isOk, Except.toBool]
                constructor
                · intro _
                  exact ⟨⟨xa, hma.1, hma.2⟩, ⟨xs, hms.1, hms.2⟩, ⟨xl, hml.1, hml.2⟩⟩
                · intro _; trivial
  · cases v with
    | none => simp [check_active_state]
    | some w =>
        by_cases hw : w ∈ activeStates
        · simp only [check_active_state, if_pos hw]
          constructor
          · intro h; cases h; exact ⟨rfl, hw⟩
          · rintro ⟨h, _⟩; cases h; rfl
        · simp only [check_active_state, if_neg hw]
          constructor
          · intro h; cases h
          · rintro ⟨h, hx⟩; cases h; exact absurd hx hw
  · cases v with
    | none => simp [check_sub_state]
    | some w =>
        by_cases hw : w ∈ subStates
        · simp only [check_sub_state, if_pos hw]
          constructor
          · intro h; cases h; exact ⟨rfl, hw⟩
          · rintro ⟨h, _⟩; cases h; rfl
        · simp only [check_sub_state, if_neg hw]
          constructor
          · intro h; cases h
          · rintro ⟨h, hx⟩; cases h; exact absurd hx hw
  · cases v with
    | none => simp [check_load_state]
    | some w =>
        by_cases hw : w ∈ loadStates
        · simp only [check_load_state, if_pos hw]
          constructor
          · intro h; cases h; exact ⟨rfl, hw⟩
          · rintro ⟨h, _⟩; cases h; rfl
        · simp only [check_load_state, if_neg hw]
          constructor
          · intro h; cases h
          · rintro ⟨h, hx⟩; cases h; exact absurd hx hw
  · cases v with
    | none => simp [check_active_state, optMem]
    | some w =>
        by_cases hw : w ∈ activeStates
        · simp [check_active_state, if_pos hw, optMem, hw]
        · simp [check_active_state, if_neg hw, optMem, hw]
  · cases v with
    | none => simp [check_sub_state, optMem]
    | some w =>
        by_cases hw : w ∈ subStates
        · simp [check_sub_state, if_pos hw, optMem, hw]
        · simp [check_sub_state, if_neg hw, optMem, hw]
  · cases v with
    | none => simp [check_load_state, optMem]
    | some w =>
        by_cases hw : w ∈ loadStates
        · simp [check_load_state, if_pos hw, optMem, hw]
        · simp [check_load_state, if_neg hw, optMem, hw]

/-! ## Claim C9: zero-result failure of the units evaluation -/

/-- C9: when the include/exclude filters leave no unit, the units probe
raises (an explicit error, which the framework maps to Unknown); when at
least one unit survives, no error is raised and one metric per surviving
unit is yielded. -/
theorem units_resource_zero_result_spec (units : Source.Cache)
    (inc exc : List Regex) :
    (units.filterUnits inc exc = [] →
        ∃ msg, unitsResourceProbe units inc exc = Except.error msg) ∧
      (units.filterUnits inc exc ≠ [] →
        unitsResourceProbe units inc exc =
          Except.ok ((units.filterUnits inc exc).map fun u => (u.name, u))) := by
  constructor
  · intro h
    refine ⟨"Please verify your --include-* and --exclude-* options. No units have been added for testing.", ?_⟩
    unfold unitsResourceProbe
    rw [h]
    rfl
  · intro h
    unfold unitsResourceProbe
    rw [if_neg]
    simp only [List.length_map, List.length_eq_zero]
    exact h

theorem units_resource_zero_result_spec_witness :
    (Source.Cache.filterUnits ⟨[]⟩ [] [] = []) ∧
      ∃ msg, unitsResourceProbe ⟨[]⟩ [] [] = Except.error msg :=
  ⟨rfl, (units_resource_zero_result_spec ⟨[]⟩ [] []).1 rfl⟩

/-! ## Claim C10: the startup-time truthiness guard -/

/-- C10: the startup-time probe yields no metric when the measurement is
absent *or* exactly `0.0` (the guard `if startup_time:` is a truthiness
test on the optional float); any nonzero measurement yields exactly the
`startup_time` metric. -/
theorem startup_time_truthiness_spec :
    startupTimeProbe none = [] ∧ startupTimeProbe (some 0) = [] ∧
      ∀ q : ℚ, q ≠ 0 → startupTimeProbe (some q) = [("startup_time", q)] := by
  refine ⟨rfl, ?_, ?_⟩
  · simp [startupTimeProbe, truthyFloat]
  · intro q hq
    simp [startupTimeProbe, truthyFloat, hq]

theorem startup_time_truthiness_spec_witness :
    ((5 : ℚ) ≠ 0) ∧ startupTimeProbe (some 5) = [("startup_time", 5)] :=
  ⟨by norm_num, startup_time_truthiness_spec.2.2 5 (by norm_num)⟩

/-! ## Claim C4: the include/exclude name filter -/

theorem matchName_eq_true_iff (n : String) (rs : List Regex) :
    Source.NameFilter.matchName n rs = true ↔
      ∃ r ∈ rs, ∃ p, p <+: n.data ∧ RMatch r p := by
  unfold Source.NameFilter.matchName
  rw [List.any_eq_true]
  constructor
  · rintro ⟨r, hr, hm⟩
    exact ⟨r, hr, (matchFromStart_iff r n.data).mp hm⟩
  · rintro ⟨r, hr, hm⟩
    exact ⟨r, hr, (matchFromStart_iff r n.data).mpr hm⟩

theorem matchName_eq_false_iff (n : String) (rs : List Regex) :
    Source.NameFilter.matchName n rs = false ↔
      ∀ r ∈ rs, ∀ p, p <+: n.data → ¬ RMatch r p := by
  constructor
  · intro h r hr p hp hm
    have htrue := (matchName_eq_true_iff n rs).mpr ⟨r, hr, p, hp, hm⟩
    rw [h] at htrue
    cases htrue
  · intro h
    cases hb : Source.NameFilter.matchName n rs with
    | false => rfl
    | true =>
        obtain ⟨r, hr, p, hp, hm⟩ := (matchName_eq_true_iff n rs).mp hb
        exact absurd hm (h r hr p hp)

theorem keeps_eq_true_iff (inc exc : List Regex) (n : String) :
    Source.NameFilter.keeps inc exc n = true ↔
      (n ≠ "" ∧
        (inc ≠ [] → Source.NameFilter.matchName n inc = true) ∧
        (exc ≠ [] → Source.NameFilter.matchName n exc = false)) := by
  unfold Source.NameFilter.keeps
  by_cases hinc : inc = []
  · subst hinc
    by_cases hexc : exc = []
    · subst hexc
      simp [Source.truthyOptStr]
    · have hexcb : !(exc.isEmpty) = true := by
        simp [List.isEmpty_iff, hexc]
      by_cases hm : Source.NameFilter.matchName n exc = true
      · by_cases hn : n = ""
        · subst hn
          simp [Source.truthyOptStr]
        · simp [Source.truthyOptStr, hn, hexcb, hm, hexc]
      · have hm' : Source.NameFilter.matchName n exc = false := by
          simpa using hm
        simp [Source.truthyOptStr, hexcb, hm', hexc]
  · have hincb : !(inc.isEmpty) = true := by
      simp [List.isEmpty_iff, hinc]
    by_cases hmi : Source.NameFilter.matchName n inc = true
    · by_cases hexc : exc = []
      · subst hexc
        simp [Source.truthyOptStr, hincb, hmi, hinc]
      · have hexcb : !(exc.isEmpty) = true := by
          simp [List.isEmpty_iff, hexc]
        by_cases hm : Source.NameFilter.matchName n exc = true
        · by_cases hn : n = ""
          · subst hn
            simp [Source.truthyOptStr, hincb, hmi, hinc, hexc, hm]
          · simp [Source.truthyOptStr, hincb, hmi, hinc, hexc, hm, hn]
        · have hm' : Source.NameFilter.matchName n exc = false := by
            simpa using hm
          simp [Source.truthyOptStr, hincb, hmi, hinc, hexc, hm']
    · have hmi' : Source.NameFilter.matchName n inc = false := by
        simpa using hmi
      simp [Source.truthyOptStr, hincb, hmi', hinc]

/-- The example name set of the specification (one concrete iteration
sequence of the stored `set`; the *count* below is order-independent). -/
def exampleNames : List String :=
  ["ModemManager.service", "mongod.service", "mysql.service", "named.service",
   "networking.mount", "nginx.service", "nmbd.timer", "php7.4-fpm.service"]

/-- The pattern `n.*`. -/
def includeNStar : Regex := Regex.cat (Regex.chr 'n') (Regex.star Regex.dot)

/-- C4 (amended): a name is yielded by `NameFilter.filter` iff it is
registered, *nonempty* (the final `if output:` truthiness test drops the
empty name), matches at least one include regex when include patterns are
given, and matches no exclude regex when exclude patterns are given; the
regexes are matched anchored at position 0 and need not reach the end
(the `∃ p, p <+: name` form).  On the 8-name example set, include `n.*`
yields exactly 4 names. -/
theorem name_filter_spec :
    (∀ (names : List String) (inc exc : List Regex) (n : String),
        n ∈ Source.NameFilter.filterRun names inc exc ↔
          (n ∈ names ∧ n ≠ "" ∧
            (inc ≠ [] → ∃ r ∈ inc, ∃ p, p <+: n.data ∧ RMatch r p) ∧
            (exc ≠ [] → ∀ r ∈ exc, ∀ p, p <+: n.data → ¬ RMatch r p))) ∧
      (Source.NameFilter.filterRun exampleNames [includeNStar] []).length = 4 := by
  constructor
  · intro names inc exc n
    unfold Source.NameFilter.filterRun
    rw [List.mem_filter, keeps_eq_true_iff]
    constructor
    · rintro ⟨hmem, hn, hi, he⟩
      refine ⟨hmem, hn, ?_, ?_⟩
      · intro h
        exact (matchName_eq_true_iff n inc).mp (hi h)
      · intro h
        exact (matchName_eq_false_iff n exc).mp (he h)
    · rintro ⟨hmem, hn, hi, he⟩
      refine ⟨hmem, hn, ?_, ?_⟩
      · intro h
        exact (matchName_eq_true_iff n inc).mpr (hi h)
      · intro h
        exact (matchName_eq_false_iff n exc).mpr (he h)
  · decide

theorem name_filter_spec_witness :
    "named.service" ∈ exampleNames ∧ "named.service" ≠ "" ∧
      (([includeNStar] : List Regex) ≠ [] →
        ∃ r ∈ [includeNStar], ∃ p, p <+: "named.service".data ∧ RMatch r p) ∧
      (([] : List Regex) ≠ [] →
        ∀ r ∈ ([] : List Regex), ∀ p, p <+: "named.service".data → ¬ RMatch r p) :=
  (name_filter_spec.1 exampleNames [includeNStar] [] "named.service").mp (by decide)

/-- C4 counterexample to the claim as stated: with the registered name set
`{""}` and no include/exclude patterns, the claimed iff (yield iff
registered + include-pass + exclude-pass, without a nonemptiness side
condition) is false: the code yields nothing because `if output:` is
falsy for the empty string. -/
theorem name_filter_claim_counterexample :
    ¬ (("" ∈ Source.NameFilter.filterRun [""] [] []) ↔
        ("" ∈ ([""] : List String) ∧
          (([] : List Regex) ≠ [] →
            ∃ r ∈ ([] : List Regex), ∃ p, p <+: ("" : String).data ∧ RMatch r p) ∧
          (([] : List Regex) ≠ [] →
            ∀ r ∈ ([] : List Regex), ∀ p, p <+: ("" : String).data → ¬ RMatch r p))) := by
  intro h
  have h2 := h.mpr ⟨by simp, by simp, by simp⟩
  have h3 : Source.NameFilter.filterRun [""] [] [] = ([] : List String) := by decide
  rw [h3] at h2
  exact absurd h2 (List.not_mem_nil "")

/-! ## Claim C6: the aggregate performance counters -/

theorem find?_cons_fst_eq (a : String) (u : Source.Unit)
    (t : List (String × Source.Unit)) :
    ((a, u) :: t).find? (fun p => p.1 = a) = some (a, u) := by
  simp [List.find?]

theorem find?_cons_fst_ne (a n : String) (u : Source.Unit)
    (t : List (String × Source.Unit)) (h : n ≠ a) :
    (((a, u) :: t).find? fun p => p.1 = n) = t.find? fun p => p.1 = n := by
  have : (decide ((a, u).1 = n)) = false := by
    simp
    exact fun he => h he.symm
  simp [List.find?, this]

theorem filterMap_lookup_eq (keep : String → Bool) :
    ∀ (l : List (String × Source.Unit)), (l.map Prod.fst).Nodup →
      ((l.map Prod.fst).filter keep).filterMap
          (fun name => (l.find? fun p => p.1 = name).map Prod.snd)
        = (l.filter fun p => keep p.1).map Prod.snd := by
  intro l
  induction l with
  | nil => intro _; rfl
  | cons hd t ih =>
      intro hnd
      obtain ⟨a, u⟩ := hd
      rw [List.map_cons, List.nodup_cons] at hnd
      have hcongr :
          ∀ ns : List String, (∀ n ∈ ns, n ≠ a) →
            (ns.filterMap fun name =>
                ((((a, u) :: t).find? fun p => p.1 = name).map Prod.snd))
              = ns.filterMap fun name => ((t.find? fun p => p.1 = name).map Prod.snd) := by
        intro ns hns
        apply List.filterMap_congr
        intro n hn
        rw [find?_cons_fst_ne a n u t (hns n hn)]
      have htail : ∀ n ∈ (t.map Prod.fst).filter keep, n ≠ a := by
        intro n hn he
        rw [he] at hn
        exact hnd.1 (List.mem_of_mem_filter hn)
      by_cases hk : keep a = true
      · rw [List.map_cons, List.filter_cons_of_pos hk,
          List.filter_cons_of_pos (by simpa using hk), List.map_cons,
          List.filterMap_cons]
        simp only [find?_cons_fst_eq]
        rw [hcongr _ htail, ih hnd.2]
        rfl
      · have hk' : keep a = false := by simpa using hk
        rw [List.map_cons, List.filter_cons_of_neg (by simp [hk']),
          List.filter_cons_of_neg (by simp [hk'])]
        rw [hcongr _ htail, ih hnd.2]

/-- With unique keys (the Python dict invariant), `Cache.filter` yields
exactly the stored records whose key passes the name filter. -/
theorem filterUnits_eq_of_nodup (c : Source.Cache) (inc exc : List Regex)
    (hnd : c.keysNodup) :
    c.filterUnits inc exc
      = (c.units.filter fun p => Source.NameFilter.keeps inc exc p.1).map Prod.snd := by
  unfold Source.Cache.filterUnits Source.NameFilter.filterRun Source.Cache.names
    Source.Cache.lookupUnit
  exact filterMap_lookup_eq (Source.NameFilter.keeps inc exc) c.units hnd

/-- The spec condition one `property:value` spec imposes on one unit. -/
def specCond (u : Source.Unit) (spec : String) : Prop :=
  Source.unitAttr u (Source.specProperty spec) = some (Source.specValue spec)

instance (u : Source.Unit) (spec : String) : Decidable (specCond u spec) := by
  unfold specCond; infer_instance

theorem count_by_states_foldl (states : List String) :
    ∀ (us : List Source.Unit) (f : String → Nat),
      us.foldl
          (fun counter u =>
            counter.map fun p => if specCond u p.1 then (p.1, p.2 + 1) else p)
          (states.map fun spec => (spec, f spec))
        = states.map fun spec =>
            (spec, f spec + us.countP fun u => decide (specCond u spec)) := by
  intro us
  induction us with
  | nil =>
      intro f
      simp
  | cons u t ih =>
      intro f
      rw [List.foldl_cons]
      have hstep :
          ((states.map fun spec => (spec, f spec)).map
              fun p => if specCond u p.1 then (p.1, p.2 + 1) else p)
            = states.map fun spec =>
                (spec, (fun s => f s + if specCond u s then 1 else 0) spec) := by
        rw [List.map_map]
        apply List.map_congr_left
        intro s _
        by_cases hc : specCond u s
        · simp [hc]
        · simp [hc]
      rw [hstep, ih]
      apply List.map_congr_left
      intro s _
      have hcnt : (u :: t).countP (fun x => decide (specCond x s))
          = t.countP (fun x => decide (specCond x s)) + if specCond u s then 1 else 0 := by
        rw [List.countP_cons]
        by_cases hc : specCond u s
        · simp [hc]
        · simp [hc]
      rw [hcnt]
      by_cases hc : specCond u s
      · simp [hc, Nat.add_comm, Nat.add_assoc, Nat.add_left_comm]
      · simp [hc]

/-- The method `count_by_states` computes, for every spec, the number of filtered
units satisfying it. -/
theorem count_by_states_eq (c : Source.Cache) (states : List String)
    (inc exc : List Regex) :
    c.count_by_states states inc exc
      = states.map fun spec =>
          (spec, (c.filterUnits inc exc).countP fun u => decide (specCond u spec)) := by
  unfold Source.Cache.count_by_states
  have h := count_by_states_foldl states (c.filterUnits inc exc) (fun _ => 0)
  simp only [Nat.zero_add] at h
  have hfold :
      (c.filterUnits inc exc).foldl
          (fun counter u =>
            counter.map fun p =>
              if Source.unitAttr u (Source.specProperty p.1)
                  = some (Source.specValue p.1)
              then (p.1, p.2 + 1) else p)
          (states.map fun spec => (spec, 0))
        = (c.filterUnits inc exc).foldl
            (fun counter u =>
              counter.map fun p => if specCond u p.1 then (p.1, p.2 + 1) else p)
            (states.map fun spec => (spec, (fun _ => 0) spec)) := rfl
  rw [hfold, h]

/-- The units surviving the *exclude* filter only — the collection the
amended C6 counters range over (spec-side form of
`NameFilter.keeps [] exc`). -/
def excludeSurvivors (c : Source.Cache) (exc : List Regex) : List Source.Unit :=
  (c.units.filter fun p =>
      (p.1 != "") && (exc.isEmpty || !Source.NameFilter.matchName p.1 exc)).map Prod.snd

theorem keeps_no_include (exc : List Regex) (n : String) :
    Source.NameFilter.keeps [] exc n
      = ((n != "") && (exc.isEmpty || !Source.NameFilter.matchName n exc)) := by
  by_cases hn : n = ""
  · subst hn
    simp [Source.NameFilter.keeps, Source.truthyOptStr]
  · by_cases hexc : exc = []
    · subst hexc
      simp [Source.NameFilter.keeps, Source.truthyOptStr, hn]
    · have hexcb : exc.isEmpty = false := by
        simp [List.isEmpty_iff, hexc]
      by_cases hm : Source.NameFilter.matchName n exc = true
      · simp [Source.NameFilter.keeps, Source.truthyOptStr, hn, hexcb, hm]
      · have hm' : Source.NameFilter.matchName n exc = false := by simpa using hm
        simp [Source.NameFilter.keeps, Source.truthyOptStr, hn, hexcb, hm']

theorem unitAttr_active_state (u : Source.Unit) :
    Source.unitAttr u "active_state" = some u.active_state := rfl

theorem countP_specCond_active (us : List Source.Unit) (spec v : String)
    (hprop : Source.specProperty spec = "active_state")
    (hval : Source.specValue spec = v) :
    (us.countP fun u => decide (specCond u spec))
      = us.countP fun u => u.active_state == v := by
  apply List.countP_congr
  intro u _
  unfold specCond
  simp only [hprop, hval, unitAttr_active_state, decide_eq_true_eq,
    Option.some.injEq, beq_iff_eq]

/-- C6 (amended): the four per-state counters are computed over the units
surviving the *exclude* filter only — the configured include patterns are
not applied to them — and `count_units` is the size of the whole
*unfiltered* unit collection. -/
theorem performance_probe_amended (c : Source.Cache) (inc exc : List Regex)
    (hnd : c.keysNodup) :
    performanceProbe c inc exc =
      [("units_failed",
          (excludeSurvivors c exc).countP fun u => u.active_state == "failed"),
       ("units_active",
          (excludeSurvivors c exc).countP fun u => u.active_state == "active"),
       ("units_activating",
          (excludeSurvivors c exc).countP fun u => u.active_state == "activating"),
       ("units_inactive",
          (excludeSurvivors c exc).countP fun u => u.active_state == "inactive"),
       ("count_units", c.units.length)] := by
  have hsurv : c.filterUnits [] exc = excludeSurvivors c exc := by
    rw [filterUnits_eq_of_nodup c [] exc hnd]
    unfold excludeSurvivors
    congr 1
    apply List.filter_congr
    intro p _
    rw [keeps_no_include]
  unfold performanceProbe Source.Cache.count
  rw [count_by_states_eq, hsurv]
  simp only [List.map_cons, List.map_nil]
  rw [countP_specCond_active _ _ "failed" (by decide) (by decide),
    countP_specCond_active _ _ "active" (by decide) (by decide),
    countP_specCond_active _ _ "activating" (by decide) (by decide),
    countP_specCond_active _ _ "inactive" (by decide) (by decide)]
  have h1 : ("units_" ++ Source.specValue "active_state:failed" : String)
      = "units_failed" := by decide
  have h2 : ("units_" ++ Source.specValue "active_state:active" : String)
      = "units_active" := by decide
  have h3 : ("units_" ++ Source.specValue "active_state:activating" : String)
      = "units_activating" := by decide
  have h4 : ("units_" ++ Source.specValue "active_state:inactive" : String)
      = "units_inactive" := by decide
  rw [h1, h2, h3, h4]
  rfl

/-- Demo data for the C6 counterexample: two active units; the include
pattern `a.*` filters the collection down to one unit, but the probe
ignores it. -/
def demoCacheC6 : Source.Cache :=
  ⟨[("a.service",
      { name := "a.service", active_state := "active",
        sub_state := "running", load_state := "loaded" }),
    ("b.service",
      { name := "b.service", active_state := "active",
        sub_state := "running", load_state := "loaded" })]⟩

/-- The pattern `a.*`. -/
def includeAStar : Regex := Regex.cat (Regex.chr 'a') (Regex.star Regex.dot)

/-- C6 counterexample to the claim as stated: with include `a.*` and no
exclude, the filtered collection has exactly one unit (one active), but
the probe reports `units_active = 2` and `count_units = 2`: neither the
per-state counters nor `count_units` are computed over the
include-filtered collection. -/
theorem performance_data_claim_counterexample :
    ¬ ((List.lookup "units_active"
          (performanceProbe demoCacheC6 [includeAStar] [])
          = some ((demoCacheC6.filterUnits [includeAStar] []).countP
              fun u => u.active_state == "active")) ∧
        (List.lookup "count_units"
            (performanceProbe demoCacheC6 [includeAStar] [])
          = some (demoCacheC6.filterUnits [includeAStar] []).length)) := by
  decide

theorem performance_probe_amended_witness :
    demoCacheC6.keysNodup ∧
      performanceProbe demoCacheC6 [includeAStar] [] =
        [("units_failed",
            (excludeSurvivors demoCacheC6 []).countP fun u => u.active_state == "failed"),
         ("units_active",
            (excludeSurvivors demoCacheC6 []).countP fun u => u.active_state == "active"),
         ("units_activating",
            (excludeSurvivors demoCacheC6 []).countP fun u => u.active_state == "activating"),
         ("units_inactive",
            (excludeSurvivors demoCacheC6 []).countP fun u => u.active_state == "inactive"),
         ("count_units", demoCacheC6.units.length)] :=
  ⟨by decide, performance_probe_amended demoCacheC6 [includeAStar] [] (by decide)⟩

/-! ## Claim C2: the timer dead-check verdict -/

/-- C2: the timers probe yields one metric per timer surviving the
exclude filter, whose state follows the claimed case distinction
(for thresholds with warning ≤ critical): `next` present → Ok;
`next` and `passed` both absent → Critical; `passed ≥ critical` →
Critical; `warning ≤ passed < critical` → Warning; `passed < warning` →
Ok. -/
theorem timers_probe_spec (timers : List Timer) (exc : List Regex)
    (w cr : ℚ) (hwc : w ≤ cr) :
    (timersProbe timers exc w cr
        = (timers.filter fun t => !Source.NameFilter.matchName t.name exc).map
            fun t => (t.name, timerVerdict w cr t)) ∧
      (∀ t : Timer, t.next.isSome → timerVerdict w cr t = ServiceState.ok) ∧
      (∀ t : Timer, t.next = none → t.passed = none →
        timerVerdict w cr t = ServiceState.critical) ∧
      (∀ (t : Timer) (p : ℚ), t.next = none → t.passed = some p → cr ≤ p →
        timerVerdict w cr t = ServiceState.critical) ∧
      (∀ (t : Timer) (p : ℚ), t.next = none → t.passed = some p → w ≤ p → p < cr →
        timerVerdict w cr t = ServiceState.warn) ∧
      (∀ (t : Timer) (p : ℚ), t.next = none → t.passed = some p → p < w →
        timerVerdict w cr t = ServiceState.ok) := by
  refine ⟨?_, ?_, ?_, ?_, ?_, ?_⟩
  · unfold timersProbe
    induction timers with
    | nil => rfl
    | cons t ts ih =>
        rw [List.filterMap_cons]
        by_cases hm : Source.NameFilter.matchName t.name exc = true
        · simp [hm, ih]
        · have hm' : Source.NameFilter.matchName t.name exc = false := by
            simpa using hm
          simp [hm', ih]
  · intro t hns
    obtain ⟨n, hn⟩ := Option.isSome_iff_exists.mp hns
    simp [timerVerdict, hn]
  · intro t hn hp
    simp [timerVerdict, hn, hp]
  · intro t p hn hp h
    simp only [timerVerdict, hn, hp]
    rw [if_pos h]
  · intro t p hn hp h1 h2
    simp only [timerVerdict, hn, hp]
    rw [if_neg (not_le.mpr h2), if_pos h1]
  · intro t p hn hp h
    simp only [timerVerdict, hn, hp]
    rw [if_neg (not_le.mpr (lt_of_lt_of_le h hwc)), if_neg (not_le.mpr h)]

/-- A dead timer with a recorded `passed` between the default thresholds
(6 and 7 days). -/
def demoTimer : Timer := { name := "foo.timer", next := none, passed := some 520000 }

theorem timers_probe_spec_witness :
    ((518400 : ℚ) ≤ 604800) ∧
      ((timersProbe [demoTimer] [] 518400 604800
          = ([demoTimer].filter fun t => !Source.NameFilter.matchName t.name []).map
              fun t => (t.name, timerVerdict 518400 604800 t)) ∧
        (∀ t : Timer, t.next.isSome →
          timerVerdict 518400 604800 t = ServiceState.ok) ∧
        (∀ t : Timer, t.next = none → t.passed = none →
          timerVerdict 518400 604800 t = ServiceState.critical) ∧
        (∀ (t : Timer) (p : ℚ), t.next = none → t.passed = some p → 604800 ≤ p →
          timerVerdict 518400 604800 t = ServiceState.critical) ∧
        (∀ (t : Timer) (p : ℚ), t.next = none → t.passed = some p → 518400 ≤ p →
            p < 604800 → timerVerdict 518400 604800 t = ServiceState.warn) ∧
        (∀ (t : Timer) (p : ℚ), t.next = none → t.passed = some p → p < 518400 →
          timerVerdict 518400 604800 t = ServiceState.ok)) :=
  ⟨by decide, timers_probe_spec [demoTimer] [] 518400 604800 (by decide)⟩

/-! ## `CliSource.Table`: the fixed-width table parser (claim C3) -/

namespace Table

/-- Python `str.strip()` whitespace (the ASCII fragment). -/
def isPySpace (c : Char) : Bool :=
  c = ' ' || c = '\t' || c = '\n' || c = '\r' || c.val = 11 || c.val = 12

/-- The character scan of `Table.__detect_lengths`: walk the row tracking
the current word length and the current space-run length; on a transition
from "inside a word with at least one trailing space" to a non-space
character, emit `word + space` as a column length and restart (the
boundary character itself starts the next word). -/
def scanColumns : List Char → Nat → Nat → List Nat
  | [], _, _ => []
  | c :: rest, word, space =>
      if 0 < word ∧ 1 ≤ space ∧ c ≠ ' ' then
        (word + space) :: scanColumns rest 1 0
      else if c = ' ' then
        scanColumns rest word (space + 1)
      else
        scanColumns rest (word + 1) space

/-- Model of `Table.__detect_lengths`: a leading run of spaces (found by the regex
`^ +`) becomes its own leading column length; the rest of the row is
scanned by `scanColumns` starting from counters `(0, 0)`. -/
def detect_lengths (header_row : List Char) : List Nat :=
  if 0 < (header_row.takeWhile fun c => c = ' ').length then
    (header_row.takeWhile fun c => c = ' ').length
      :: scanColumns
          (header_row.drop (header_row.takeWhile fun c => c = ' ').length) 0 0
  else scanColumns header_row 0 0

/-- Model of `str.strip()`. -/
def pyStrip (s : List Char) : List Char :=
  ((s.dropWhile isPySpace).reverse.dropWhile isPySpace).reverse

/-- The loop of `Table.__split_row`: running right index, slice
`line[left:right]` per column length, strip each field; afterwards the
remainder `line[right:]` is stripped and appended. -/
def split_rowGo (line : List Char) (right : Nat) : List Nat → List (List Char)
  | [] => [pyStrip (line.drop right)]
  | l :: ls => pyStrip ((line.drop right).take l) :: split_rowGo line (right + l) ls

/-- Model of `Table.__split_row`. -/
def split_row (line : List Char) (column_lengths : List Nat) : List (List Char) :=
  split_rowGo line 0 column_lengths

/-! Spec-side description: a header row decomposes into a leading space
run plus a sequence of (word, following-spaces) runs; every run except
the last yields its total length as a column width, and all runs but the
last must have a nonempty space part. -/

/-- A nonempty run of non-space characters. -/
def wordRun (w : List Char) : Prop := w ≠ [] ∧ ∀ c ∈ w, c ≠ ' '

/-- A (possibly empty) run of spaces. -/
def spaceRun (s : List Char) : Prop := ∀ c ∈ s, c = ' '

/-- Well-formed run decomposition: each pair is a word run plus a space
run, and every pair except the last has a nonempty space part (two words
must be separated by at least one space). -/
def wfRuns : List (List Char × List Char) → Prop
  | [] => True
  | [(w, s)] => wordRun w ∧ spaceRun s
  | (w, s) :: rest => wordRun w ∧ spaceRun s ∧ s ≠ [] ∧ wfRuns rest

instance (w : List Char) : Decidable (wordRun w) := by
  unfold wordRun; infer_instance

instance (s : List Char) : Decidable (spaceRun s) := by
  unfold spaceRun; infer_instance

def wfRunsDecAux : (rs : List (List Char × List Char)) → Decidable (wfRuns rs)
  | [] => isTrue trivial
  | [(w, s)] => inferInstanceAs (Decidable (wordRun w ∧ spaceRun s))
  | (w, s) :: r :: rest =>
      have _ : Decidable (wfRuns (r :: rest)) := wfRunsDecAux (r :: rest)
      inferInstanceAs (Decidable (wordRun w ∧ spaceRun s ∧ s ≠ [] ∧ wfRuns (r :: rest)))

instance (rs : List (List Char × List Char)) : Decidable (wfRuns rs) :=
  wfRunsDecAux rs

/-- The claimed column widths: the run length (word + following spaces)
of every run except the last. -/
def runWidths : List (List Char × List Char) → List Nat
  | [] => []
  | [_] => []
  | (w, s) :: rest => (w.length + s.length) :: runWidths rest

/-- Reassemble the header row from its runs. -/
def flattenRuns : List (List Char × List Char) → List Char
  | [] => []
  | (w, s) :: rest => w ++ (s ++ flattenRuns rest)

/-- The claimed slicing: consecutive `take`s of the widths. -/
def slices : List Char → List Nat → List (List Char)
  | _, [] => []
  | line, l :: ls => line.take l :: slices (line.drop l) ls

theorem scanColumns_cons (c : Char) (rest : List Char) (word space : Nat) :
    scanColumns (c :: rest) word space =
      if 0 < word ∧ 1 ≤ space ∧ c ≠ ' ' then
        (word + space) :: scanColumns rest 1 0
      else if c = ' ' then
        scanColumns rest word (space + 1)
      else
        scanColumns rest (word + 1) space := rfl

theorem scanColumns_word :
    ∀ (w : List Char), (∀ c ∈ w, c ≠ ' ') →
      ∀ (rest : List Char) (word : Nat),
        scanColumns (w ++ rest) word 0 = scanColumns rest (word + w.length) 0 := by
  intro w
  induction w with
  | nil => intro _ rest word; simp
  | cons c w' ih =>
      intro hw rest word
      have hc : c ≠ ' ' := hw c (List.mem_cons_self c w')
      have hw' : ∀ x ∈ w', x ≠ ' ' := fun x hx => hw x (List.mem_cons_of_mem c hx)
      rw [List.cons_append, scanColumns_cons,
        if_neg (fun h => absurd h.2.1 (by omega)), if_neg hc,
        ih hw' rest (word + 1)]
      have harith : word + 1 + w'.length = word + (c :: w').length := by
        simp only [List.length_cons]
        omega
      rw [harith]

theorem scanColumns_space :
    ∀ (s : List Char), (∀ c ∈ s, c = ' ') →
      ∀ (rest : List Char) (word space : Nat),
        scanColumns (s ++ rest) word space
          = scanColumns rest word (space + s.length) := by
  intro s
  induction s with
  | nil => intro _ rest word space; simp
  | cons c s' ih =>
      intro hs rest word space
      have hc : c = ' ' := hs c (List.mem_cons_self c s')
      have hs' : ∀ x ∈ s', x = ' ' := fun x hx => hs x (List.mem_cons_of_mem c hx)
      rw [List.cons_append, scanColumns_cons,
        if_neg (fun h => absurd hc h.2.2), if_pos hc,
        ih hs' rest word (space + 1)]
      have harith : space + 1 + s'.length = space + (c :: s').length := by
        simp only [List.length_cons]
        omega
      rw [harith]

theorem scanColumns_boundary (c : Char) (rest : List Char) (word space : Nat)
    (hword : 0 < word) (hspace : 1 ≤ space) (hc : c ≠ ' ') :
    scanColumns (c :: rest) word space
      = (word + space) :: scanColumns (c :: rest) 0 0 := by
  rw [scanColumns_cons, if_pos ⟨hword, hspace, hc⟩]
  congr 1
  rw [scanColumns_cons, if_neg (fun h => absurd h.1 (by omega)), if_neg hc]

/-- The head word and space run of a well-formed decomposition. -/
theorem wfRuns_head {w s : List Char} {rest : List (List Char × List Char)}
    (h : wfRuns ((w, s) :: rest)) : wordRun w ∧ spaceRun s := by
  cases rest with
  | nil => exact h
  | cons r t => exact ⟨h.1, h.2.1⟩

theorem wfRuns_tail {w s : List Char} {r : List Char × List Char}
    {t : List (List Char × List Char)}
    (h : wfRuns ((w, s) :: r :: t)) : wfRuns (r :: t) := h.2.2.2

/-- The scan over a reassembled well-formed run decomposition produces
exactly the claimed widths. -/
theorem scanColumns_runs :
    ∀ (runs : List (List Char × List Char)), wfRuns runs →
      scanColumns (flattenRuns runs) 0 0 = runWidths runs := by
  intro runs
  induction runs with
  | nil => intro _; rfl
  | cons hd rest ih =>
      obtain ⟨w, s⟩ := hd
      intro hwf
      obtain ⟨⟨hwne, hwc⟩, hs⟩ := wfRuns_head hwf
      cases rest with
      | nil =>
          show scanColumns (w ++ (s ++ flattenRuns [])) 0 0 = runWidths [(w, s)]
          rw [scanColumns_word w hwc, scanColumns_space s hs]
          rfl
      | cons hd2 rest2 =>
          obtain ⟨w2, s2⟩ := hd2
          have hsne : s ≠ [] := hwf.2.2.1
          have hwf2 : wfRuns ((w2, s2) :: rest2) := wfRuns_tail hwf
          obtain ⟨⟨hw2ne, hw2c⟩, _⟩ := wfRuns_head hwf2
          obtain ⟨c2, t2, hc2⟩ := List.exists_cons_of_ne_nil hw2ne
          have hc2ne : c2 ≠ ' ' := by
            apply hw2c
            rw [hc2]
            exact List.mem_cons_self c2 t2
          have hflat : flattenRuns ((w2, s2) :: rest2)
              = c2 :: (t2 ++ (s2 ++ flattenRuns rest2)) := by
            show w2 ++ (s2 ++ flattenRuns rest2) = _
            rw [hc2]
            rfl
          show scanColumns (w ++ (s ++ flattenRuns ((w2, s2) :: rest2))) 0 0
              = runWidths ((w, s) :: (w2, s2) :: rest2)
          rw [scanColumns_word w hwc, scanColumns_space s hs, hflat,
            scanColumns_boundary c2 _ _ _
              (by have := List.length_pos.mpr hwne; omega)
              (by have := List.length_pos.mpr hsne; omega)
              hc2ne,
            ← hflat, ih hwf2]
          show _ = (w.length + s.length) :: runWidths ((w2, s2) :: rest2)
          congr 1
          omega

theorem takeWhile_append_all {p : Char → Bool} :
    ∀ (l1 l2 : List Char), (∀ c ∈ l1, p c = true) →
      (l1 ++ l2).takeWhile p = l1 ++ l2.takeWhile p := by
  intro l1
  induction l1 with
  | nil => intro l2 _; rfl
  | cons c t ih =>
      intro l2 h
      have hc := h c (List.mem_cons_self c t)
      rw [List.cons_append, List.takeWhile_cons_of_pos hc,
        ih l2 fun x hx => h x (List.mem_cons_of_mem c hx)]
      rfl

theorem takeWhile_eq_nil_of_head {p : Char → Bool} (c : Char) (t : List Char)
    (hc : p c = false) : (c :: t).takeWhile p = [] := by
  rw [List.takeWhile_cons, hc]
  rfl

theorem flattenRuns_cons_shape (w s : List Char)
    (rest : List (List Char × List Char)) (hw : wordRun w) :
    ∃ c t, flattenRuns ((w, s) :: rest) = c :: t ∧ c ≠ ' ' := by
  obtain ⟨c, t, hct⟩ := List.exists_cons_of_ne_nil hw.1
  refine ⟨c, t ++ (s ++ flattenRuns rest), ?_, ?_⟩
  · show w ++ (s ++ flattenRuns rest) = _
    rw [hct]
    rfl
  · apply hw.2
    rw [hct]
    exact List.mem_cons_self c t

/-- The column-length inference on a decomposed header: a nonempty
leading space run becomes its own leading column; each (word + following
spaces) run except the last contributes its total length. -/
theorem detect_lengths_eq (lead : List Char) (hlead : ∀ c ∈ lead, c = ' ')
    (runs : List (List Char × List Char)) (hwf : wfRuns runs) :
    detect_lengths (lead ++ flattenRuns runs)
      = (if lead = [] then [] else [lead.length]) ++ runWidths runs := by
  have hleadb : ∀ c ∈ lead, (fun c => decide (c = ' ')) c = true := by
    intro c hc
    simp [hlead c hc]
  have htake : (lead ++ flattenRuns runs).takeWhile (fun c => c = ' ') = lead := by
    rw [takeWhile_append_all lead (flattenRuns runs) hleadb]
    cases hr : runs with
    | nil => simp [flattenRuns]
    | cons hd rest =>
        obtain ⟨w, s⟩ := hd
        have hw : wordRun w := by
          rw [hr] at hwf
          exact (wfRuns_head hwf).1
        obtain ⟨c, t, hct, hcne⟩ := flattenRuns_cons_shape w s rest hw
        rw [hct, takeWhile_eq_nil_of_head c t (by simp [hcne])]
        simp
  unfold detect_lengths
  rw [htake]
  by_cases hl : lead = []
  · subst hl
    simp only [List.length_nil, List.nil_append, if_neg (by omega : ¬ 0 < 0),
      if_pos rfl]
    exact scanColumns_runs runs hwf
  · have hlpos : 0 < lead.length := List.length_pos.mpr hl
    rw [if_pos hlpos, if_neg hl]
    have hdrop : (lead ++ flattenRuns runs).drop lead.length = flattenRuns runs :=
      List.drop_left lead (flattenRuns runs)
    rw [hdrop, scanColumns_runs runs hwf]
    rfl

/-- Behaviour of `__split_row` on any line: one stripped slice per column length, then
the stripped remainder of the line as a final extra field. -/
theorem split_rowGo_eq :
    ∀ (ls : List Nat) (line : List Char) (right : Nat),
      split_rowGo line right ls
        = ((slices (line.drop right) ls).map pyStrip)
            ++ [pyStrip ((line.drop right).drop (ls.foldr (· + ·) 0))] := by
  intro ls
  induction ls with
  | nil =>
      intro line right
      simp [split_rowGo, slices]
  | cons l t ih =>
      intro line right
      have hstep : split_rowGo line right (l :: t)
          = pyStrip ((line.drop right).take l) :: split_rowGo line (right + l) t := rfl
      rw [hstep, ih line (right + l)]
      have hdd : line.drop (right + l) = (line.drop right).drop l := by
        rw [List.drop_drop]
      rw [hdd]
      have hfinal : ((line.drop right).drop l).drop (t.foldr (· + ·) 0)
          = (line.drop right).drop ((l :: t).foldr (· + ·) 0) := by
        rw [List.drop_drop]
        rfl
      have hslice : slices (line.drop right) (l :: t)
          = (line.drop right).take l :: slices ((line.drop right).drop l) t := rfl
      rw [hfinal, hslice, List.map_cons, List.cons_append]

theorem dropWhile_head_false {p : Char → Bool} :
    ∀ (l : List Char) (c : Char) (t : List Char),
      l.dropWhile p = c :: t → p c = false := by
  intro l
  induction l with
  | nil => intro c t h; cases h
  | cons a l' ih =>
      intro c t h
      by_cases ha : p a = true
      · rw [List.dropWhile_cons_of_pos ha] at h
        exact ih c t h
      · have ha' : p a = false := by simpa using ha
        rw [List.dropWhile_cons_of_neg (by simp [ha'])] at h
        obtain ⟨hc, _⟩ := List.cons.inj h
        rw [← hc]
        exact ha'

/-- Every string that is empty or starts with a non-space decomposes into
a well-formed run sequence (fuelled induction on the length). -/
theorem decompose_runs :
    ∀ (n : Nat) (s : List Char), s.length ≤ n →
      (s = [] ∨ ∃ c t, s = c :: t ∧ c ≠ ' ') →
      ∃ runs, wfRuns runs ∧ s = flattenRuns runs := by
  intro n
  induction n with
  | zero =>
      intro s hlen _
      have : s = [] := List.eq_nil_of_length_eq_zero (by omega)
      exact ⟨[], trivial, by rw [this]; rfl⟩
  | succ m ih =>
      intro s hlen hstart
      rcases hstart with hnil | ⟨c, t, hct, hcne⟩
      · exact ⟨[], trivial, by rw [hnil]; rfl⟩
      · have hw : (s.takeWhile fun x => x ≠ ' ') ≠ [] := by
          rw [hct, List.takeWhile_cons_of_pos (by simp [hcne])]
          simp
        set w := s.takeWhile fun x => x ≠ ' ' with hwdef
        set rest1 := s.dropWhile fun x => x ≠ ' ' with hrest1
        set sp := rest1.takeWhile fun x => x = ' ' with hspdef
        set rest2 := rest1.dropWhile fun x => x = ' ' with hrest2
        have hsplit1 : w ++ rest1 = s := List.takeWhile_append_dropWhile _ s
        have hsplit2 : sp ++ rest2 = rest1 := List.takeWhile_append_dropWhile _ rest1
        have hwall : ∀ x ∈ w, x ≠ ' ' := by
          intro x hx
          have := List.mem_takeWhile_imp hx
          simpa using this
        have hspall : ∀ x ∈ sp, x = ' ' := by
          intro x hx
          have := List.mem_takeWhile_imp hx
          simpa using this
        have hr2start : rest2 = [] ∨ ∃ c2 t2, rest2 = c2 :: t2 ∧ c2 ≠ ' ' := by
          cases hr2 : rest2 with
          | nil => exact Or.inl rfl
          | cons c2 t2 =>
              refine Or.inr ⟨c2, t2, rfl, ?_⟩
              have := dropWhile_head_false rest1 c2 t2 (by rw [← hrest2, hr2])
              simpa using this
        have hwpos : 0 < w.length := List.length_pos.mpr hw
        have hlens : w.length + (sp.length + rest2.length) = s.length := by
          have h1 : w.length + rest1.length = s.length := by
            rw [← hsplit1]
            simp
          have h2 : sp.length + rest2.length = rest1.length := by
            rw [← hsplit2]
            simp
          omega
        have hr2len : rest2.length ≤ m := by omega
        obtain ⟨runs2, hwf2, hflat2⟩ := ih rest2 hr2len hr2start
        refine ⟨(w, sp) :: runs2, ?_, ?_⟩
        · cases hruns2 : runs2 with
          | nil => exact ⟨⟨hw, hwall⟩, hspall⟩
          | cons r2 t2 =>
              have hspne : sp ≠ [] := by
                have hr2ne : rest2 ≠ [] := by
                  rw [hflat2, hruns2]
                  obtain ⟨w2, s2⟩ := r2
                  have hw2 : wordRun w2 := by
                    rw [hruns2] at hwf2
                    exact (wfRuns_head hwf2).1
                  obtain ⟨c2, t2', hshape, _⟩ :=
                    flattenRuns_cons_shape w2 s2 t2 hw2
                  rw [hshape]
                  simp
                have hrest1ne : rest1 ≠ [] := by
                  intro habs
                  rw [← hsplit2] at habs
                  have := List.append_eq_nil.mp habs
                  exact hr2ne this.2
                obtain ⟨c1, t1, hc1t1⟩ := List.exists_cons_of_ne_nil hrest1ne
                have hc1 : c1 = ' ' := by
                  have := dropWhile_head_false s c1 t1 (by rw [← hrest1, hc1t1])
                  simpa using this
                rw [hspdef, hc1t1, List.takeWhile_cons_of_pos (by simp [hc1])]
                simp
              rw [hruns2] at hwf2
              exact ⟨⟨hw, hwall⟩, hspall, hspne, hwf2⟩
        · show s = w ++ (sp ++ flattenRuns runs2)
          rw [← hflat2, hsplit2, hsplit1]

/-- Any header row decomposes as a leading space run plus well-formed
(word, spaces) runs. -/
theorem header_decomposition (header : List Char) :
    ∃ lead runs, (∀ c ∈ lead, c = ' ') ∧ wfRuns runs ∧
      header = lead ++ flattenRuns runs := by
  set lead := header.takeWhile fun c => c = ' ' with hleaddef
  set after := header.dropWhile fun c => c = ' ' with hafterdef
  have hsplit : lead ++ after = header := List.takeWhile_append_dropWhile _ header
  have hleadall : ∀ c ∈ lead, c = ' ' := by
    intro c hc
    have := List.mem_takeWhile_imp hc
    simpa using this
  have hastart : after = [] ∨ ∃ c t, after = c :: t ∧ c ≠ ' ' := by
    cases ha : after with
    | nil => exact Or.inl rfl
    | cons c t =>
        refine Or.inr ⟨c, t, rfl, ?_⟩
        have := dropWhile_head_false header c t (by rw [← hafterdef, ha])
        simpa using this
  obtain ⟨runs, hwf, hflat⟩ := decompose_runs after.length after le_rfl hastart
  exact ⟨lead, runs, hleadall, hwf, by rw [← hsplit, hflat]⟩

end Table

/-- C3: every header row decomposes into a leading space run plus
well-formed (word + following spaces) runs; on that decomposition the
column-boundary inference emits one width per run — its full
(word + trailing spaces) length, any transition from "word with ≥ 1
trailing space" to the next word being a boundary even for a single-space
gap — with a nonempty leading space run becoming its own leading column
(and the last run absorbed by the final field); slicing any line with the
inferred widths yields one stripped field per width plus a final stripped
field holding the remainder of the line. -/
theorem table_parser_spec :
    (∀ header : List Char, ∃ lead runs,
        (∀ c ∈ lead, c = ' ') ∧ Table.wfRuns runs ∧
          header = lead ++ Table.flattenRuns runs) ∧
      (∀ (lead : List Char) (runs : List (List Char × List Char)),
        (∀ c ∈ lead, c = ' ') → Table.wfRuns runs →
          Table.detect_lengths (lead ++ Table.flattenRuns runs)
            = (if lead = [] then [] else [lead.length]) ++ Table.runWidths runs) ∧
      (∀ (line : List Char) (ls : List Nat),
        Table.split_row line ls
          = (Table.slices line ls).map Table.pyStrip
              ++ [Table.pyStrip (line.drop (ls.foldr (· + ·) 0))]) := by
  refine ⟨Table.header_decomposition, ?_, ?_⟩
  · intro lead runs hlead hwf
    exact Table.detect_lengths_eq lead hlead runs hwf
  · intro line ls
    have h := Table.split_rowGo_eq ls line 0
    simpa [Table.split_row] using h

/-- The third header row of the repository's own
`test_detect_column_lengths` test, as a run decomposition:
`"  1 1  2 2  3 3  "`, widths `[2, 2, 3, 2, 3, 2]`. -/
def demoLead : List Char := [' ', ' ']

def demoRuns : List (List Char × List Char) :=
  [(['1'], [' ']), (['1'], [' ', ' ']), (['2'], [' ']),
   (['2'], [' ', ' ']), (['3'], [' ']), (['3'], [' ', ' '])]

theorem table_parser_spec_witness :
    (∀ c ∈ demoLead, c = ' ') ∧ Table.wfRuns demoRuns ∧
      Table.detect_lengths (demoLead ++ Table.flattenRuns demoRuns)
        = (if demoLead = [] then [] else [demoLead.length]) ++ Table.runWidths demoRuns :=
  ⟨by decide, by decide,
    table_parser_spec.2.1 demoLead demoRuns (by decide) (by decide)⟩

/-- Corroboration against the repository's table-parser tests:
`detect("  1 1  2 2  3 3  ") = [2, 2, 3, 2, 3, 2]` and
`split("UNIT  STATE  LOAD  ", [6, 7]) = ["UNIT", "STATE", "LOAD"]`. -/
theorem table_parser_test_rows :
    Table.detect_lengths ("  1 1  2 2  3 3  ".data) = [2, 2, 3, 2, 3, 2] ∧
      Table.detect_lengths ("1  2  3".data) = [3, 3] ∧
      Table.detect_lengths ("  1  2  3  ".data) = [2, 3, 3] ∧
      Table.split_row ("UNIT  STATE  LOAD  ".data) [6, 7]
        = ["UNIT".data, "STATE".data, "LOAD".data] ∧
      Table.split_row ("123456789".data) [3, 3]
        = ["123".data, "456".data, "789".data] := by
  refine ⟨by decide, by decide, by decide, by decide, by decide⟩

/-! ## `CliSource.__convert_to_sec`: the timespan parser (claim C7)

Floats are modelled as exact rationals; `round(x, 3)` is modelled as
rounding to the nearest thousandth (`round3`).  Python's float `round`
uses the binary representation at exact four-decimal ties, which has no
exact rational counterpart; all values of interest here are exact
thousandths, for which rounding is the identity. -/

/-- Model of `str.replace(pat, rep)` (leftmost, non-overlapping, pattern nonempty),
fuelled by the input length: one character is consumed per step, and a
successful match consumes `pat.length ≥ 1` characters, so the fuel never
runs out for a nonempty pattern. -/
def replaceAllGo (pat rep : List Char) : Nat → List Char → List Char
  | _, [] => []
  | 0, s => s
  | fuel + 1, c :: rest =>
      if pat ≠ [] ∧ pat.isPrefixOf (c :: rest) then
        rep ++ replaceAllGo pat rep fuel ((c :: rest).drop pat.length)
      else
        c :: replaceAllGo pat rep fuel rest

def replaceAll (s pat rep : List Char) : List Char :=
  replaceAllGo pat rep s.length s

/-- The four multi-word contractions, applied in source order:
`" years"→"y"`, `" months"→"month"`, `" weeks"→"w"`, `" days"→"d"`. -/
def applyReplacements (s : List Char) : List Char :=
  replaceAll
    (replaceAll
      (replaceAll
        (replaceAll s " years".data "y".data)
        " months".data "month".data)
      " weeks".data "w".data)
    " days".data "d".data

/-- Model of `str.split()` with no separator: split on whitespace runs, dropping
empty fields. -/
def splitWsGo : List Char → List Char → List (List Char)
  | [], acc => if acc = [] then [] else [acc.reverse]
  | c :: rest, acc =>
      if Table.isPySpace c then
        if acc = [] then splitWsGo rest []
        else acc.reverse :: splitWsGo rest []
      else splitWsGo rest (c :: acc)

def splitWs (s : List Char) : List (List Char) := splitWsGo s []

/-- The character class `[\d\.]`. -/
def isNumChar (c : Char) : Bool := c.isDigit || c = '.'

/-- The character class `[a-z]`. -/
def isLowerAZ (c : Char) : Bool := 'a' ≤ c && c ≤ 'z'

/-- Model of `re.search(r"([\d\.]+)([a-z]+)", span)`: the leftmost maximal run of
digits/dots immediately followed by a lowercase letter, paired with the
maximal letter run after it.  `run` accumulates (reversed) the digit/dot
run ending at the current position. -/
def findNumUnitGo : List Char → List Char → Option (List Char × List Char)
  | [], _ => none
  | c :: rest, run =>
      if isNumChar c then findNumUnitGo rest (c :: run)
      else if isLowerAZ c ∧ run ≠ [] then
        some (run.reverse, c :: rest.takeWhile isLowerAZ)
      else findNumUnitGo rest []

def findNumUnit (s : List Char) : Option (List Char × List Char) :=
  findNumUnitGo s []

def digitsToNat (s : List Char) : Nat :=
  s.foldl (fun n c => 10 * n + (c.toNat - 48)) 0

/-- Model of `float(value)` on a digits-and-dots capture, as (mantissa, number of
fractional digits): fails on more than one dot and on a lone dot, like
`float` raises `ValueError`. -/
def parseDecimal (s : List Char) : Option (Nat × Nat) :=
  if s = [] then none
  else
    match s.count '.' with
    | 0 => some (digitsToNat s, 0)
    | 1 =>
        if (s.takeWhile fun c => c ≠ '.') = [] ∧
            ((s.dropWhile fun c => c ≠ '.').drop 1) = [] then none
        else
          some
            (digitsToNat (s.takeWhile fun c => c ≠ '.')
                * 10 ^ ((s.dropWhile fun c => c ≠ '.').drop 1).length
              + digitsToNat ((s.dropWhile fun c => c ≠ '.').drop 1),
             ((s.dropWhile fun c => c ≠ '.').drop 1).length)
    | _ => none

def qOfDecimal (p : Nat × Nat) : ℚ := (p.1 : ℚ) / (10 ^ p.2 : ℚ)

def parseFloat (s : List Char) : Option ℚ := (parseDecimal s).map qOfDecimal

/-- The `seconds` dict, in source order. -/
def secondsTable : List (String × ℚ) :=
  [("y", 31536000), ("month", 2592000), ("w", 604800), ("d", 86400),
   ("h", 3600), ("min", 60), ("s", 1), ("ms", 1 / 1000)]

/-- Model of `seconds[unit]` — `none` models the `KeyError` on an unknown unit. -/
def unitMultiplier (u : List Char) : Option ℚ :=
  List.lookup (⟨u⟩ : String) secondsTable

/-- Model of `round(x, 3)`. -/
def round3 (q : ℚ) : ℚ := ((round (q * 1000) : ℤ) : ℚ) / 1000

/-- One token's contribution `float(value) * seconds[unit]`; `some 0` when
the regex does not match (the token is skipped); `none` when the code
would raise. -/
def tokenContribution (tok : List Char) : Option ℚ :=
  match findNumUnit tok with
  | none => some 0
  | some (v, u) =>
      match parseFloat v, unitMultiplier u with
      | some q, some m => some (q * m)
      | _, _ => none

def addToken (acc : Option ℚ) (tok : List Char) : Option ℚ :=
  match acc, tokenContribution tok with
  | some a, some c => some (a + c)
  | _, _ => none

/-- Model of `CliSource.__convert_to_sec`. -/
def convert_to_sec (fmt_timespan : String) : Option ℚ :=
  ((splitWs (applyReplacements fmt_timespan.data)).foldl addToken
      (some (0 : ℚ))).map round3

/-- The value a good token contributes. -/
def tokenValue (tok : List Char) : ℚ := (tokenContribution tok).getD 0

theorem addToken_some (a q : ℚ) (tok : List Char)
    (h : tokenContribution tok = some q) :
    addToken (some a) tok = some (a + q) := by
  unfold addToken
  rw [h]

theorem foldl_addToken_some :
    ∀ (tokens : List (List Char)),
      (∀ tok ∈ tokens, (tokenContribution tok).isSome) →
      ∀ a : ℚ,
        tokens.foldl addToken (some a) = some (a + (tokens.map tokenValue).sum) := by
  intro tokens
  induction tokens with
  | nil => intro _ a; simp
  | cons tok toks ih =>
      intro h a
      obtain ⟨q, hq⟩ :=
        Option.isSome_iff_exists.mp (h tok (List.mem_cons_self tok toks))
      rw [List.foldl_cons, addToken_some a q tok hq,
        ih (fun t ht => h t (List.mem_cons_of_mem tok ht)) (a + q)]
      have hv : tokenValue tok = q := by
        unfold tokenValue
        rw [hq]
        rfl
      rw [List.map_cons, List.sum_cons, hv]
      congr 1
      ring

theorem round3_thousandths (n : ℤ) :
    round3 ((n : ℚ) / 1000) = (n : ℚ) / 1000 := by
  unfold round3
  rw [div_mul_cancel₀ _ (by norm_num : (1000 : ℚ) ≠ 0), round_intCast]

/-- C7: the timespan parser returns the whitespace-token sum of
`value × multiplier` after contracting the multi-word unit names, rounded
to three decimals, and on the spec's four examples yields exactly 1.0,
61.123, 5875200.0 and 2086.292 seconds. -/
theorem convert_to_sec_spec :
    convert_to_sec "1s" = some 1 ∧
      convert_to_sec "1min 1.123s" = some (61123 / 1000) ∧
      convert_to_sec "2 months 8 days" = some 5875200 ∧
      convert_to_sec "34min 46.292s" = some (2086292 / 1000) ∧
      ∀ fmt : String,
        (∀ tok ∈ splitWs (applyReplacements fmt.data),
          (tokenContribution tok).isSome) →
        convert_to_sec fmt
          = some (round3
              (((splitWs (applyReplacements fmt.data)).map tokenValue).sum)) := by
  refine ⟨?_, ?_, ?_, ?_, ?_⟩
  · have ht : splitWs (applyReplacements "1s".data) = [['1', 's']] := by decide
    have hval : round3 (0 + qOfDecimal (1, 0) * 1) = 1 := by
      have hX : (0 + qOfDecimal (1, 0) * 1 : ℚ) = ((1000 : ℤ) : ℚ) / 1000 := by
        norm_num [qOfDecimal]
      rw [hX, round3_thousandths]
      norm_num
    unfold convert_to_sec
    rw [ht, List.foldl_cons, addToken_some 0 (qOfDecimal (1, 0) * 1) ['1', 's'] rfl,
      List.foldl_nil, Option.map_some', hval]
  · have ht : splitWs (applyReplacements "1min 1.123s".data)
        = [['1', 'm', 'i', 'n'], ['1', '.', '1', '2', '3', 's']] := by decide
    have hval : round3 (0 + qOfDecimal (1, 0) * 60 + qOfDecimal (1123, 3) * 1)
        = 61123 / 1000 := by
      have hX : (0 + qOfDecimal (1, 0) * 60 + qOfDecimal (1123, 3) * 1 : ℚ)
          = ((61123 : ℤ) : ℚ) / 1000 := by
        norm_num [qOfDecimal]
      rw [hX, round3_thousandths]
      norm_num
    unfold convert_to_sec
    rw [ht, List.foldl_cons, addToken_some 0 (qOfDecimal (1, 0) * 60) ['1', 'm', 'i', 'n'] rfl,
      List.foldl_cons, addToken_some _ (qOfDecimal (1123, 3) * 1) ['1', '.', '1', '2', '3', 's'] rfl,
      List.foldl_nil, Option.map_some', hval]
  · have ht : splitWs (applyReplacements "2 months 8 days".data)
        = [['2', 'm', 'o', 'n', 't', 'h'], ['8', 'd']] := by decide
    have hval :
        round3 (0 + qOfDecimal (2, 0) * 2592000 + qOfDecimal (8, 0) * 86400)
          = 5875200 := by
      have hX : (0 + qOfDecimal (2, 0) * 2592000 + qOfDecimal (8, 0) * 86400 : ℚ)
          = ((5875200000 : ℤ) : ℚ) / 1000 := by
        norm_num [qOfDecimal]
      rw [hX, round3_thousandths]
      norm_num
    unfold convert_to_sec
    rw [ht, List.foldl_cons, addToken_some 0 (qOfDecimal (2, 0) * 2592000) ['2', 'm', 'o', 'n', 't', 'h'] rfl,
      List.foldl_cons, addToken_some _ (qOfDecimal (8, 0) * 86400) ['8', 'd'] rfl,
      List.foldl_nil, Option.map_some', hval]
  · have ht : splitWs (applyReplacements "34min 46.292s".data)
        = [['3', '4', 'm', 'i', 'n'], ['4', '6', '.', '2', '9', '2', 's']] := by
      decide
    have hval : round3 (0 + qOfDecimal (34, 0) * 60 + qOfDecimal (46292, 3) * 1)
        = 2086292 / 1000 := by
      have hX : (0 + qOfDecimal (34, 0) * 60 + qOfDecimal (46292, 3) * 1 : ℚ)
          = ((2086292 : ℤ) : ℚ) / 1000 := by
        norm_num [qOfDecimal]
      rw [hX, round3_thousandths]
      norm_num
    unfold convert_to_sec
    rw [ht, List.foldl_cons, addToken_some 0 (qOfDecimal (34, 0) * 60) ['3', '4', 'm', 'i', 'n'] rfl,
      List.foldl_cons, addToken_some _ (qOfDecimal (46292, 3) * 1) ['4', '6', '.', '2', '9', '2', 's'] rfl,
      List.foldl_nil, Option.map_some', hval]
  · intro fmt h
    unfold convert_to_sec
    rw [foldl_addToken_some _ h 0, Option.map_some']
    congr 1
    rw [zero_add]

theorem convert_to_sec_spec_witness :
    (∀ tok ∈ splitWs (applyReplacements "5d".data),
        (tokenContribution tok).isSome) ∧
      convert_to_sec "5d"
        = some (round3
            (((splitWs (applyReplacements "5d".data)).map tokenValue).sum)) :=
  ⟨by decide, convert_to_sec_spec.2.2.2.2 "5d" (by decide)⟩

end CheckSystemd
